import Mathlib

set_option maxRecDepth 8192

/-!
# Verification of the OmniUpdate version-distribution core

Shallow embedding of the OmniUpdate repository:

* `Updates-Server.js` — version catalog (`getFolders`, `sortVersionsDescending`,
  `get_versions`) and the HTTP handlers for `GET /versions` and `GET /updates`.
* `Updates-Client.js` — `getCurrentVersion`, `extractTar`, `update`,
  `checkForUpdate`.

JavaScript strings are modelled as `List Char` so that every definition is a
computable structural recursion.  Filesystem and network effects are modelled
by explicit parameters: the directory listing of the package root, a
directory-existence predicate, the per-version package contents, and the
downloaded archive data.
-/

/-- A JavaScript string, modelled as its list of characters. -/
abbrev JStr := List Char

/-- The character list of a Lean string literal. -/
def toL (s : String) : JStr := s.data

/-! ## Generic string operations used by the source -/

/-- `String.prototype.split(sep)` restricted to a single-character separator:
`splitOnChar sep s` returns the (always nonempty) list of chunks of `s`
between occurrences of `sep`. -/
def splitOnChar (sep : Char) : JStr → List JStr
  | [] => [[]]
  | c :: rest =>
    match splitOnChar sep rest with
    | [] => [[c]]
    | p :: ps => if c = sep then [] :: p :: ps else (c :: p) :: ps

/-- `\d` of the source's regular expression: an ASCII decimal digit. -/
def isDig (c : Char) : Bool := 48 ≤ c.toNat && c.toNat ≤ 57

/-- `\s`: the whitespace class used by `replace(/\s/g,'')` and `trim()`. -/
def isWs (c : Char) : Bool :=
  c = ' ' || c = '\t' || c = '\n' || c = '\r' || c = '\x0b' || c = '\x0c'

/-- `version.replace(/\s/g, '')`: remove every whitespace character. -/
def stripWs (s : JStr) : JStr := s.filter (fun c => !isWs c)

/-- `String.prototype.trim()`: drop whitespace at both ends. -/
def jsTrim (s : JStr) : JStr :=
  ((s.dropWhile (fun c => isWs c)).reverse.dropWhile (fun c => isWs c)).reverse

/-- `String.prototype.toUpperCase()` on the ASCII range (the only characters
the source ever compares). -/
def jsToUpper (c : Char) : Char :=
  if 97 ≤ c.toNat ∧ c.toNat ≤ 122 then Char.ofNat (c.toNat - 32) else c

/-- `s.toUpperCase()` character by character. -/
def upperStr (s : JStr) : JStr := s.map jsToUpper

/-- `startsW s p`: `p` is a prefix of `s` (`String.prototype.startsWith`). -/
def startsW : JStr → JStr → Bool
  | _, [] => true
  | [], _ :: _ => false
  | c :: cs, p :: ps => c = p && startsW cs ps

/-- `String.prototype.replace(pat, rep)` with a plain-string pattern:
replace the first occurrence of `pat` in `s` by `rep`. -/
def replaceFirst (s pat rep : JStr) : JStr :=
  match s with
  | [] => []
  | c :: cs => if startsW s pat then rep ++ s.drop pat.length else c :: replaceFirst cs pat rep

/-- `containsSub pat s`: `pat` occurs as a contiguous substring of `s`. -/
def containsSub (pat : JStr) : JStr → Bool
  | [] => startsW [] pat
  | c :: cs => startsW (c :: cs) pat || containsSub pat cs

/-- A version string "contains a traversal sequence such as `../`". -/
def hasTraversal (s : JStr) : Bool := containsSub (toL "../") s

/-! ## Version grammar and the numeric comparator (`Updates-Server.js` 226–246) -/

/-- The filter `/^\d+(\.\d+)*$/.test(version)`: the string splits on `'.'`
into nonempty all-digit chunks. -/
def matchesGrammar (s : JStr) : Bool :=
  (splitOnChar '.' s).all (fun p => !p.isEmpty && p.all isDig)

/-- The exact integer a nonempty all-digit chunk denotes (`007` denotes 7). -/
def chunkVal (p : JStr) : Nat := p.foldl (fun n c => n * 10 + (c.toNat - 48)) 0

/-- Binade finder for double rounding: the least `e` with `m / 2 ^ e < 2 ^ 53`
(the first argument is fuel; it is always called with `fuel = m`, which bounds
the number of halvings). -/
def dblExpAux : Nat → Nat → Nat
  | 0, _ => 0
  | fuel + 1, m => if m < 2 ^ 53 then 0 else dblExpAux fuel (m / 2) + 1

/-- The least `e` with `m / 2 ^ e < 2 ^ 53`, so `2 ^ e` is the spacing of
IEEE-754 binary64 values in the binade of `m` (1 below `2 ^ 53`). -/
def dblExp (m : Nat) : Nat := dblExpAux m m

/-- Round a natural number to the nearest IEEE-754 binary64 value
(round-to-nearest, ties-to-even), as JavaScript number parsing does: the
result is the exact integer value of that double — every binary64 value at
least `2 ^ 52` is an integer, and integers below `2 ^ 53` are represented
exactly — or `none` for overflow to `Infinity` (a rounded value reaching
`2 ^ 1024`). -/
def toDouble (n : Nat) : Option Nat :=
  let s := 2 ^ dblExp n
  let q := n / s
  let r := n % s
  let m :=
    if r * 2 < s then q * s
    else if s < r * 2 then (q + 1) * s
    else if q % 2 = 0 then q * s else (q + 1) * s
  if m < 2 ^ 1024 then some m else none

/-- `Number(p)` for a nonempty all-digit chunk `p`: JavaScript parses the
decimal string to the nearest double, so distinct integers from `2 ^ 53` up
can coincide (`Number "9007199254740993" = 9007199254740992`) and huge
components overflow to `Infinity`, modelled as `none`. -/
def jsNumber (p : JStr) : Option Nat := toDouble (chunkVal p)

/-- `a.split('.').map(Number)`: a tuple of doubles. -/
def parts (s : JStr) : List (Option Nat) := (splitOnChar '.' s).map jsNumber

/-- A sign-faithful integer standing for the double `numB - numA` that the
comparator returns for distinct doubles (`Array.prototype.sort` consumes only
its sign): the exact difference when both are finite, `±1` when one side is
`Infinity`.  Subtraction of distinct doubles never rounds to zero, and the
`numA !== numB` test precedes the subtraction, so `Infinity - Infinity`
(`NaN`) never reaches the sort. -/
def dSub : Option Nat → Option Nat → Int
  | some a, some b => (b : Int) - (a : Int)
  | none, some _ => -1
  | some _, none => 1
  | none, none => 0

/-- The comparator of `sortVersionsDescending`, exhausted first tuple: the
remaining loop compares the default `0` against each `numB` (`jsCmpNil` is
`jsCmp []`, split off so that `jsCmp` is a structural recursion). -/
def jsCmpNil : List (Option Nat) → Int
  | [] => 0
  | b :: bs => if b ≠ some 0 then dSub (some 0) b else jsCmpNil bs

/-- The comparator body of `sortVersionsDescending`: walk both double tuples
up to the longer length, treating missing components as `0`, and return
`numB - numA` at the first difference (bigger numbers first). -/
def jsCmp : List (Option Nat) → List (Option Nat) → Int
  | [], bs => jsCmpNil bs
  | a :: as, [] => if a ≠ some 0 then dSub a (some 0) else jsCmp as []
  | a :: as, b :: bs => if a ≠ b then dSub a b else jsCmp as bs

/-- `a` sorts no later than `b` under the descending comparator. -/
def versLe (a b : JStr) : Prop := jsCmp (parts a) (parts b) ≤ 0

instance : DecidableRel versLe :=
  fun a b => inferInstanceAs (Decidable (jsCmp (parts a) (parts b) ≤ 0))

/-! ## Server: catalog construction (`Updates-Server.js` 199–275) -/

/-- Result object of `sortVersionsDescending` / `get_versions`:
`{Status: true, versions}` or `{Status: false, error}`. -/
inductive VRes where
  | ok (versions : List JStr)
  | err (msg : String)
deriving DecidableEq

/-- The package-root directory as seen by `fs.readdirSync(dirPath,
{withFileTypes: true})`: either unreadable, or a listing of entries tagged
with `isDirectory()`. -/
inductive DirState where
  | inaccessible
  | listing (entries : List (JStr × Bool))

/-- `getFolders` (lines 265–275): list the sub-directory names; a read error is
caught, logged, and turned into `[]`. -/
def getFolders : DirState → List JStr
  | .inaccessible => []
  | .listing entries => (entries.filter (·.2)).map (·.1)

/-- `sortVersionsDescending` (lines 217–258): keep the strings matching the
digit-dot grammar and sort them with the descending numeric comparator.
`Array.prototype.sort` with a consistent comparator is a stable sort, modelled
here by `List.insertionSort`. The `typeof version === 'string'` guard and the
`catch` are vacuous in this model (inputs are strings, nothing throws). -/
def sortVersionsDescending (versions : List JStr) : VRes :=
  .ok (List.insertionSort versLe (versions.filter matchesGrammar))

/-- `get_versions` (lines 199–210). -/
def get_versions (d : DirState) : VRes :=
  sortVersionsDescending (getFolders d)

/-- The version list carried by `get_versions` (total accessor). -/
def catalogOf (d : DirState) : List JStr :=
  match get_versions d with
  | .ok vs => vs
  | .err _ => []

/-! ## Server: `GET /versions` (lines 54–74) -/

/-- Response of `GET /versions`: `200 {versions, latest}` or an error status
with a JSON `error` field. -/
inductive VersionsResp where
  | ok (versions : List JStr) (latest : Option JStr)
  | err (status : Nat) (msg : String)
deriving DecidableEq

/-- The `/versions` handler: `500` when `get_versions` reports a failure,
otherwise `{versions, latest: versions[0] | null}`. -/
def versionsHandler (d : DirState) : VersionsResp :=
  match get_versions d with
  | .err e => .err 500 e
  | .ok vs => .ok vs vs.head?

/-! ## Server: path handling for `GET /updates` (lines 104–136) -/

/-- One step of path normalisation: `.` and empty components vanish, `..` pops
(at the root it stays at the root, as `path.resolve` does for absolute
paths), anything else is appended. -/
def normStep (acc : List JStr) (comp : JStr) : List JStr :=
  if comp = [] ∨ comp = toL "." then acc
  else if comp = toL ".." then acc.dropLast
  else acc ++ [comp]

/-- `path.resolve` on an absolute component list. -/
def normPath (p : List JStr) : List JStr := p.foldl normStep []

/-- Render a component list the way the source compares paths as strings. -/
def pathToStr : List JStr → JStr
  | [] => []
  | [p] => p
  | p :: ps => p ++ '/' :: pathToStr ps

/-! ## Server: `GET /updates` (lines 80–173) -/

/-- The version-resolution block (lines 104–119): `LATEST` (case-insensitive)
takes the first catalog entry, otherwise the first exact case-insensitive
match after stripping whitespace from the request. -/
def resolveVersion (versions : List JStr) (version : JStr) : Option JStr :=
  if upperStr version = toL "LATEST" then versions.head?
  else versions.find? (fun v => upperStr v = upperStr (stripWs version))

/-- Possible responses of the `/updates` handler. -/
inductive UpdResp where
  /-- `403 {error}` when `get_versions` reports `Status: false` (line 91). -/
  | unavailable403 (msg : String)
  /-- `404 'No available releases for this app'` (line 99). -/
  | noReleases404
  /-- `404 'Version ${version} not found, try a different version …'`
  (line 114); carries the requested string echoed in the message. -/
  | versionNotFound404 (requested : JStr)
  /-- `403 'Invalid version path'` (line 126). -/
  | invalidPath403
  /-- `404 'Version ${version} not found'` when the folder is missing
  (line 133). -/
  | missing404 (version : JStr)
  /-- `200`: stream the archive of `version` from `resolvedPath`, with
  `Content-Disposition: attachment; filename="version.tar.gz"` (lines 138–158). -/
  | stream200 (version : JStr) (resolvedPath : List JStr)
deriving DecidableEq

/-- Defaulting of the `version` query parameter (lines 81–85): a missing or
falsy (empty) value becomes `'LATEST'`. -/
def requestedOf (q : Option JStr) : JStr :=
  match q with
  | none => toL "LATEST"
  | some v => if v = [] then toL "LATEST" else v

/-- The `GET /updates` handler.  `base` is `BASE_DIR` as a component list,
`ex` is the `fs.existsSync … && … isDirectory()` check on a resolved path,
`d` the package-root state, and `q` the `version` query parameter
(`none`/empty string are falsy and default to `'LATEST'`). -/
def updatesHandler (base : List JStr) (ex : List JStr → Bool) (d : DirState)
    (q : Option JStr) : UpdResp :=
  let version := requestedOf q
  match get_versions d with
  | .err e => .unavailable403 e
  | .ok versions =>
    if versions = [] then .noReleases404
    else
      match resolveVersion versions version with
      | none => .versionNotFound404 version
      | some v =>
        let folderPath := base ++ splitOnChar '/' v
        let resolved := normPath folderPath
        if !startsW (pathToStr resolved) (pathToStr base) then .invalidPath403
        else if !ex resolved then .missing404 v
        else .stream200 v resolved

/-! ## Client (`Updates-Client.js`) -/

/-- An archive entry: the path of the entry inside the tarball, as components,
and its byte content. -/
abbrev TarEntry := List JStr × JStr

/-- The data `tar.x` finds in the downloaded file: either a well-formed
archive, or a malformed/truncated one that fails after yielding the listed
entries. -/
inductive TarData where
  | good (entries : List TarEntry)
  | bad (entries : List TarEntry)
deriving DecidableEq

/-- `tar.x({file, cwd: appPath, strip: 1})` on a list of entries: drop one
leading path component from every entry; entries with at most one component
vanish with it. -/
def stripExtract (entries : List TarEntry) : List TarEntry :=
  (entries.filter (fun e => 1 < e.1.length)).map (fun e => (e.1.drop 1, e.2))

/-- Durable client state: `version.txt` (`none` when absent) and the managed
application directory (`none` when absent). -/
structure ClientState where
  versionFile : Option JStr
  appDir : Option (List TarEntry)
deriving DecidableEq

/-- `extractTar` (lines 127–149): remove the application directory if present,
recreate it, then extract with `strip: 1`; returns the new directory state and
whether `tar.x` succeeded (a failure is rethrown by the source, leaving the
partially extracted directory behind). -/
def extractTar (appDir : Option (List TarEntry)) (td : TarData) :
    Option (List TarEntry) × Bool :=
  match appDir, td with
  | _, .good es => (some (stripExtract es), true)
  | _, .bad es => (some (stripExtract es), false)

/-- `getCurrentVersion` (lines 34–43): read `version.txt` and `trim()` it;
`null` when the file is absent. -/
def getCurrentVersion (versionFile : Option JStr) : Option JStr :=
  versionFile.map jsTrim

/-- `checkForUpdate` (lines 209–221):
`availableVersions.length > 0 && availableVersions[0] !== currentVersion`. -/
def checkForUpdate (available : List JStr) (versionFile : Option JStr) : Bool :=
  !available.isEmpty && decide (available.head? ≠ getCurrentVersion versionFile)

/-- `update` (lines 171–203).  `version` is the argument, `dl` the outcome of
`downloadVersion`: an error, or the downloaded file name (from the
`Content-Disposition` header) together with its tar data.  On success the
version recorded is the raw argument, except that exactly the string
`'LATEST'` is replaced by the filename with its first `.tar.gz` removed. -/
def update (version : JStr) (st : ClientState) (dl : Except String (JStr × TarData)) :
    Bool × ClientState :=
  match dl with
  | .error _ => (false, st)
  | .ok (filename, td) =>
    match extractTar st.appDir td with
    | (app', false) => (false, { st with appDir := app' })
    | (app', true) =>
      let actualVersion :=
        if version = toL "LATEST" then replaceFirst filename (toL ".tar.gz") []
        else version
      (true, { versionFile := some actualVersion, appDir := app' })

/-! ## Composition: client `update` against the server handler -/

/-- What `downloadVersion` receives from the server: on `stream200 v _` the
`Content-Disposition` filename `v.tar.gz` and the archive of the package of
`v` — `createTarStream` wraps the directory contents `pkg v` in a single
top-level directory named `v`.  Any non-200 answer makes `axios` throw. -/
def serveDownload (pkg : JStr → List TarEntry) (r : UpdResp) :
    Except String (JStr × TarData) :=
  match r with
  | .stream200 v _ => .ok (v ++ toL ".tar.gz", .good ((pkg v).map (fun e => (v :: e.1, e.2))))
  | _ => .error "request failed"

/-- One whole client `update(requested)` run against the server. -/
def endToEnd (base : List JStr) (ex : List JStr → Bool) (d : DirState)
    (pkg : JStr → List TarEntry) (st : ClientState) (requested : JStr) :
    Bool × ClientState :=
  update requested st (serveDownload pkg (updatesHandler base ex d (some requested)))

/-! ## Properties of the numeric comparator -/

theorem dSub_swap (a b : Option Nat) : dSub b a = - dSub a b := by
  cases a <;> cases b <;> simp [dSub]

theorem dSub_zero_nonpos (a : Option Nat) : dSub a (some 0) ≤ 0 := by
  cases a <;> simp [dSub]

theorem dSub_zero_pos {b : Option Nat} (hb : b ≠ some 0) : 0 < dSub (some 0) b := by
  cases b with
  | none => simp [dSub]
  | some m =>
    have hm : m ≠ 0 := fun e => hb (by rw [e])
    simp [dSub]
    omega

theorem dSub_ne_zero {a b : Option Nat} (h : a ≠ b) : dSub a b ≠ 0 := by
  cases a <;> cases b <;> simp_all [dSub] <;> omega

theorem dSub_trans_le {a b c : Option Nat} (h1 : dSub a b ≤ 0) (h2 : dSub b c ≤ 0) :
    dSub a c ≤ 0 := by
  cases a <;> cases b <;> cases c <;> simp_all [dSub] <;> omega

theorem jsCmp_nil_nonpos : ∀ as, jsCmp as [] ≤ 0 := by
  intro as
  induction as with
  | nil => simp [jsCmp, jsCmpNil]
  | cons a as ih =>
    by_cases ha : a = some 0
    · simpa [jsCmp, ha] using ih
    · simp [jsCmp, ha, dSub_zero_nonpos a]

theorem jsCmp_nil_swap : ∀ bs, jsCmp bs [] = - jsCmp [] bs := by
  intro bs
  induction bs with
  | nil => simp [jsCmp, jsCmpNil]
  | cons b bs ih =>
    by_cases hb : b = some 0
    · simpa [jsCmp, jsCmpNil, hb] using ih
    · show (if b ≠ some 0 then dSub b (some 0) else jsCmp bs []) =
        -(if b ≠ some 0 then dSub (some 0) b else jsCmpNil bs)
      rw [if_pos hb, if_pos hb, dSub_swap]

theorem jsCmp_swap : ∀ as bs, jsCmp bs as = - jsCmp as bs := by
  intro as
  induction as with
  | nil => exact jsCmp_nil_swap
  | cons a as ih =>
    intro bs
    cases bs with
    | nil =>
      have h := jsCmp_nil_swap (a :: as)
      omega
    | cons b bs =>
      by_cases hab : a = b
      · subst hab
        simpa [jsCmp] using ih bs
      · have hba : ¬ b = a := fun h => hab h.symm
        show (if b ≠ a then dSub b a else jsCmp bs as) =
          -(if a ≠ b then dSub a b else jsCmp as bs)
        rw [if_pos hba, if_pos hab, dSub_swap]

theorem jsCmp_trans_aux :
    ∀ n as bs cs, as.length + bs.length + cs.length ≤ n →
      jsCmp as bs ≤ 0 → jsCmp bs cs ≤ 0 → jsCmp as cs ≤ 0 := by
  intro n
  induction n with
  | zero =>
    intro as bs cs hlen h1 h2
    cases as with
    | nil =>
      cases cs with
      | nil => simp [jsCmp, jsCmpNil]
      | cons c cs => simp at hlen
    | cons a as => simp at hlen
  | succ n ih =>
    intro as bs cs hlen h1 h2
    cases cs with
    | nil => exact jsCmp_nil_nonpos as
    | cons c cs =>
      cases as with
      | nil =>
        cases bs with
        | nil => exact h2
        | cons b bs =>
          by_cases hb : b = some 0
          · subst hb
            simp [jsCmp, jsCmpNil] at h1
            by_cases hc : c = some 0
            · subst hc
              simp [jsCmp, jsCmpNil] at h2 ⊢
              refine ih [] bs cs ?_ h1 h2
              simp at hlen ⊢
              omega
            · have hne : ¬ (some 0 : Option Nat) = c := fun e => hc e.symm
              rw [show jsCmp ((some 0 : Option Nat) :: bs) (c :: cs) = dSub (some 0) c
                from if_pos hne] at h2
              have := dSub_zero_pos hc
              omega
          · rw [show jsCmp ([] : List (Option Nat)) (b :: bs) = dSub (some 0) b
              from if_pos hb] at h1
            have := dSub_zero_pos hb
            omega
      | cons a as =>
        cases bs with
        | nil =>
          by_cases hc : c = some 0
          · subst hc
            simp [jsCmp, jsCmpNil] at h2
            by_cases ha : a = some 0
            · subst ha
              have he : jsCmp ((some 0 : Option Nat) :: as) ((some 0 : Option Nat) :: cs) =
                  jsCmp as cs := if_neg (by simp)
              rw [he]
              refine ih as [] cs ?_ (jsCmp_nil_nonpos as) h2
              simp at hlen ⊢
              omega
            · rw [show jsCmp (a :: as) ((some 0 : Option Nat) :: cs) = dSub a (some 0)
                from if_pos ha]
              exact dSub_zero_nonpos a
          · rw [show jsCmp ([] : List (Option Nat)) (c :: cs) = dSub (some 0) c
              from if_pos hc] at h2
            have := dSub_zero_pos hc
            omega
        | cons b bs =>
          by_cases hab : a = b
          · subst hab
            by_cases hbc : a = c
            · subst hbc
              simp [jsCmp] at h1 h2 ⊢
              refine ih as bs cs ?_ h1 h2
              simp at hlen ⊢
              omega
            · rw [show jsCmp (a :: bs) (c :: cs) = dSub a c from if_pos hbc] at h2
              rw [show jsCmp (a :: as) (c :: cs) = dSub a c from if_pos hbc]
              exact h2
          · rw [show jsCmp (a :: as) (b :: bs) = dSub a b from if_pos hab] at h1
            by_cases hbc : b = c
            · subst hbc
              rw [show jsCmp (a :: as) (b :: cs) = dSub a b from if_pos hab]
              exact h1
            · rw [show jsCmp (b :: bs) (c :: cs) = dSub b c from if_pos hbc] at h2
              by_cases hac : a = c
              · subst hac
                have hs := dSub_swap a b
                have hne := dSub_ne_zero hab
                omega
              · rw [show jsCmp (a :: as) (c :: cs) = dSub a c from if_pos hac]
                exact dSub_trans_le h1 h2

theorem jsCmp_trans {as bs cs : List (Option Nat)} (h1 : jsCmp as bs ≤ 0)
    (h2 : jsCmp bs cs ≤ 0) : jsCmp as cs ≤ 0 :=
  jsCmp_trans_aux (as.length + bs.length + cs.length) as bs cs le_rfl h1 h2

instance : IsTrans JStr versLe :=
  ⟨fun _ _ _ h1 h2 => jsCmp_trans h1 h2⟩

instance : IsTotal JStr versLe := by
  refine ⟨fun a b => ?_⟩
  have h := jsCmp_swap (parts a) (parts b)
  unfold versLe
  omega

theorem splitOnChar_ne_nil (sep : Char) : ∀ s, splitOnChar sep s ≠ [] := by
  intro s
  induction s with
  | nil => simp [splitOnChar]
  | cons c rest ih =>
    simp only [splitOnChar]
    match h : splitOnChar sep rest with
    | [] => simp
    | p :: ps =>
      by_cases hc : c = sep <;> simp [hc]

theorem chars_of_splitOnChar (sep : Char) :
    ∀ s c, c ∈ s → c = sep ∨ ∃ p ∈ splitOnChar sep s, c ∈ p := by
  intro s
  induction s with
  | nil => intro c hc; cases hc
  | cons x rest ih =>
    intro c hc
    obtain ⟨q, qs, hs⟩ : ∃ q qs, splitOnChar sep rest = q :: qs := by
      match hs : splitOnChar sep rest with
      | [] => exact absurd hs (splitOnChar_ne_nil sep rest)
      | q :: qs => exact ⟨q, qs, rfl⟩
    by_cases hx : x = sep
    · rcases List.mem_cons.mp hc with hceq | hmem
      · exact Or.inl (hceq.trans hx)
      · rcases ih c hmem with h | ⟨p, hp, hcp⟩
        · exact Or.inl h
        · refine Or.inr ⟨p, ?_, hcp⟩
          have hsplit : splitOnChar sep (x :: rest) = [] :: q :: qs := by
            simp [splitOnChar, hs, hx]
          rw [hsplit]
          rw [hs] at hp
          exact List.mem_cons_of_mem _ hp
    · have hsplit : splitOnChar sep (x :: rest) = (x :: q) :: qs := by
        simp [splitOnChar, hs, hx]
      by_cases hcx : c = x
      · exact Or.inr ⟨x :: q, by simp [hsplit], by simp [hcx]⟩
      · have hmem : c ∈ rest := by
          rcases List.mem_cons.mp hc with h | h
          · exact absurd h hcx
          · exact h
        rcases ih c hmem with h | ⟨p, hp, hcp⟩
        · exact Or.inl h
        · rw [hs] at hp
          rcases List.mem_cons.mp hp with heq | h'
          · exact Or.inr ⟨x :: q, by simp [hsplit], by simp [heq ▸ hcp]⟩
          · exact Or.inr ⟨p, by simp [hsplit, h'], hcp⟩

theorem grammar_chars {v : JStr} (h : matchesGrammar v = true) :
    ∀ c ∈ v, c = '.' ∨ isDig c = true := by
  intro c hc
  rcases chars_of_splitOnChar '.' v c hc with h' | ⟨p, hp, hcp⟩
  · exact Or.inl h'
  · unfold matchesGrammar at h
    rw [List.all_eq_true] at h
    have := h p hp
    rw [Bool.and_eq_true, List.all_eq_true] at this
    exact Or.inr (this.2 c hcp)

theorem grammar_no_slash {v : JStr} (h : matchesGrammar v = true) : '/' ∉ v := by
  intro hmem
  rcases grammar_chars h '/' hmem with h' | h' <;> revert h' <;> decide

theorem grammar_no_lower {v : JStr} (h : matchesGrammar v = true) :
    ∀ c ∈ v, c.toNat < 97 := by
  intro c hc
  rcases grammar_chars h c hc with rfl | h'
  · decide
  · unfold isDig at h'
    rw [Bool.and_eq_true, decide_eq_true_eq, decide_eq_true_eq] at h'
    omega

theorem jsToUpper_eq_self {c : Char} (h : c.toNat < 97) : jsToUpper c = c := by
  unfold jsToUpper
  rw [if_neg]
  omega

/-- A helper: mapping a function that fixes every element of a list. -/
theorem map_eq_self {f : Char → Char} :
    ∀ {s : JStr}, (∀ c ∈ s, f c = c) → s.map f = s := by
  intro s
  induction s with
  | nil => intro _; rfl
  | cons c cs ih =>
    intro h
    simp only [List.map_cons]
    rw [h c (by simp), ih (fun x hx => h x (by simp [hx]))]

theorem upperStr_grammar {v : JStr} (h : matchesGrammar v = true) :
    upperStr v = v :=
  map_eq_self (fun c hc => jsToUpper_eq_self (grammar_no_lower h c hc))

/-- A component is untouched by `path.resolve` normalisation. -/
def normalComp (c : JStr) : Bool :=
  decide (c ≠ []) && decide (c ≠ toL ".") && decide (c ≠ toL "..")

theorem grammar_normal {v : JStr} (h : matchesGrammar v = true) :
    normalComp v = true := by
  have h1 : v ≠ [] := by rintro rfl; revert h; decide
  have h2 : v ≠ toL "." := by rintro rfl; revert h; decide
  have h3 : v ≠ toL ".." := by rintro rfl; revert h; decide
  simp [normalComp, h1, h2, h3]

theorem splitOnChar_eq_single {sep : Char} :
    ∀ {s : JStr}, (∀ c ∈ s, c ≠ sep) → splitOnChar sep s = [s] := by
  intro s
  induction s with
  | nil => intro _; rfl
  | cons c cs ih =>
    intro h
    have hcs : splitOnChar sep cs = [cs] := ih (fun x hx => h x (by simp [hx]))
    simp [splitOnChar, hcs, h c (by simp)]

/-! ## Path lemmas -/

theorem startsW_append : ∀ s t : JStr, startsW (s ++ t) s = true := by
  intro s t
  induction s with
  | nil => cases t <;> rfl
  | cons c cs ih => simp [startsW, ih]

theorem startsW_append_left {s p : JStr} (h : startsW s p = true) :
    ∀ x : JStr, startsW (x ++ s) (x ++ p) = true := by
  intro x
  induction x with
  | nil => simpa using h
  | cons c cs ih => simp [startsW, ih]

theorem pathToStr_startsW {xs : List JStr} (hne : xs ≠ []) (v : JStr) :
    startsW (pathToStr (xs ++ [v])) (pathToStr xs) = true := by
  induction xs with
  | nil => exact absurd rfl hne
  | cons x rest ih =>
    cases rest with
    | nil => simpa [pathToStr] using startsW_append x ('/' :: v)
    | cons y ys =>
      have h := ih (by simp)
      have h2 : startsW ('/' :: pathToStr ((y :: ys) ++ [v])) ('/' :: pathToStr (y :: ys)) = true := by
        rw [List.cons_append] at h
        simp [startsW, List.cons_append, h]
      exact startsW_append_left h2 x

theorem normPath_acc : ∀ (p : List JStr) (acc : List JStr),
    (∀ c ∈ p, normalComp c = true) → p.foldl normStep acc = acc ++ p := by
  intro p
  induction p with
  | nil => intro acc _; simp
  | cons c rest ih =>
    intro acc h
    have hc := h c (by simp)
    unfold normalComp at hc
    simp only [Bool.and_eq_true, decide_eq_true_eq] at hc
    have hstep : normStep acc c = acc ++ [c] := by
      unfold normStep
      rw [if_neg (by tauto), if_neg hc.2]
    simp only [List.foldl_cons, hstep]
    rw [ih (acc ++ [c]) (fun x hx => h x (by simp [hx]))]
    simp

theorem normPath_normal {p : List JStr} (h : ∀ c ∈ p, normalComp c = true) :
    normPath p = p := by
  simpa using normPath_acc p [] h

/-! ## Catalog facts -/

theorem get_versions_ok (d : DirState) :
    get_versions d = VRes.ok (catalogOf d) := rfl

theorem catalogOf_eq (d : DirState) :
    catalogOf d = List.insertionSort versLe ((getFolders d).filter matchesGrammar) := rfl

theorem mem_catalog_grammar {d : DirState} {v : JStr} (h : v ∈ catalogOf d) :
    matchesGrammar v = true := by
  rw [catalogOf_eq] at h
  have := (List.perm_insertionSort versLe ((getFolders d).filter matchesGrammar)).mem_iff.mp h
  exact (List.mem_filter.mp this).2

theorem resolve_mem {vs : List JStr} {q v : JStr}
    (h : resolveVersion vs q = some v) : v ∈ vs := by
  unfold resolveVersion at h
  split at h
  · cases vs with
    | nil => cases h
    | cons a l => simp at h; simp [h]
  · exact List.mem_of_find?_eq_some h

theorem resolve_match {vs : List JStr} {q v : JStr}
    (hl : upperStr q ≠ toL "LATEST")
    (h : resolveVersion vs q = some v) :
    upperStr v = upperStr (stripWs q) := by
  unfold resolveVersion at h
  rw [if_neg hl] at h
  have := List.find?_some h
  simpa using this

/-! ## Traversal strings never resolve -/

theorem startsW_mem : ∀ {pat s : JStr}, startsW s pat = true → ∀ c ∈ pat, c ∈ s := by
  intro pat
  induction pat with
  | nil => intro s _ c hc; cases hc
  | cons p ps ih =>
    intro s h c hc
    cases s with
    | nil => cases h
    | cons x xs =>
      simp only [startsW, Bool.and_eq_true, decide_eq_true_eq] at h
      rcases List.mem_cons.mp hc with rfl | hmem
      · simp [h.1]
      · exact List.mem_cons_of_mem _ (ih h.2 c hmem)

theorem slash_of_traversal {q : JStr} (h : hasTraversal q = true) : '/' ∈ q := by
  unfold hasTraversal at h
  induction q with
  | nil => cases h
  | cons c cs ih =>
    unfold containsSub at h
    rcases Bool.or_eq_true_iff.mp h with h' | h'
    · exact startsW_mem h' '/' (by decide)
    · exact List.mem_cons_of_mem _ (ih h')

theorem jsToUpper_slash : jsToUpper '/' = '/' := by decide

theorem slash_not_latest {q : JStr} (hs : '/' ∈ q) : upperStr q ≠ toL "LATEST" := by
  intro h
  have : jsToUpper '/' ∈ upperStr q := List.mem_map_of_mem _ hs
  rw [jsToUpper_slash, h] at this
  revert this
  decide

theorem slash_no_match {w q : JStr} (hw : matchesGrammar w = true) (hs : '/' ∈ q) :
    upperStr w ≠ upperStr (stripWs q) := by
  intro h
  have hs' : '/' ∈ stripWs q := by
    unfold stripWs
    rw [List.mem_filter]
    exact ⟨hs, by decide⟩
  have : jsToUpper '/' ∈ upperStr (stripWs q) := List.mem_map_of_mem _ hs'
  rw [jsToUpper_slash, ← h, upperStr_grammar hw] at this
  exact grammar_no_slash hw this

/-! ## Shape of the `/updates` handler -/

theorem updatesHandler_eq (base : List JStr) (ex : List JStr → Bool) (d : DirState)
    (q : Option JStr) :
    updatesHandler base ex d q =
      (if catalogOf d = [] then .noReleases404
       else match resolveVersion (catalogOf d) (requestedOf q) with
         | none => .versionNotFound404 (requestedOf q)
         | some v =>
           if !startsW (pathToStr (normPath (base ++ splitOnChar '/' v)))
               (pathToStr base) then .invalidPath403
           else if !ex (normPath (base ++ splitOnChar '/' v)) then .missing404 v
           else .stream200 v (normPath (base ++ splitOnChar '/' v))) := rfl

theorem requestedOf_some {q : JStr} (h : q ≠ []) : requestedOf (some q) = q := by
  simp [requestedOf, h]

/-- For a catalog member, the joined path normalises to `base ++ [v]` and
passes the string-prefix containment check. -/
theorem resolved_path_of_catalog {base : List JStr} {d : DirState} {v : JStr}
    (hbase : ∀ c ∈ base, normalComp c = true) (hne : base ≠ [])
    (hv : v ∈ catalogOf d) :
    normPath (base ++ splitOnChar '/' v) = base ++ [v] ∧
      startsW (pathToStr (base ++ [v])) (pathToStr base) = true := by
  have hg := mem_catalog_grammar hv
  have hsplit : splitOnChar '/' v = [v] :=
    splitOnChar_eq_single (fun c hc e => grammar_no_slash hg (e ▸ hc))
  have hnorm : normPath (base ++ [v]) = base ++ [v] := by
    refine normPath_normal ?_
    intro c hc
    rcases List.mem_append.mp hc with h' | h'
    · exact hbase c h'
    · rcases List.mem_singleton.mp h' with rfl
      exact grammar_normal hg
  exact ⟨by rw [hsplit, hnorm], pathToStr_startsW hne v⟩

/-- Any streamed version is a catalog member, and the streamed path is the
normalised join. -/
theorem updatesHandler_stream_inv {base : List JStr} {ex : List JStr → Bool}
    {d : DirState} {q : Option JStr} {v : JStr} {p : List JStr}
    (h : updatesHandler base ex d q = .stream200 v p) :
    v ∈ catalogOf d ∧ p = normPath (base ++ splitOnChar '/' v) := by
  rw [updatesHandler_eq] at h
  split at h
  · exact absurd h (by simp)
  · split at h
    · exact absurd h (by simp)
    · next u hr =>
        split at h
        · exact absurd h (by simp)
        · split at h
          · exact absurd h (by simp)
          · injection h with h1 h2
            subst h1
            subst h2
            exact ⟨resolve_mem hr, rfl⟩

/-- Stripping the first `.tar.gz` from `v.tar.gz` recovers `v` when `v` is
made of digits and dots. -/
theorem replaceFirst_tarGz :
    ∀ {v : JStr}, (∀ c ∈ v, c = '.' ∨ isDig c = true) →
      replaceFirst (v ++ toL ".tar.gz") (toL ".tar.gz") [] = v := by
  have hpat : toL ".tar.gz" = ['.', 't', 'a', 'r', '.', 'g', 'z'] := rfl
  intro v
  induction v with
  | nil => intro _; decide
  | cons c cs ih =>
    intro h
    have hs : startsW ((c :: cs) ++ toL ".tar.gz") (toL ".tar.gz") = false := by
      by_cases hc : c = '.'
      · subst hc
        cases cs with
        | nil => decide
        | cons x xs =>
          have hx : x ≠ 't' := by
            intro e
            rcases h x (by simp) with h' | h'
            · rw [e] at h'; revert h'; decide
            · rw [e] at h'; revert h'; decide
          rw [hpat]
          simp [startsW, hx]
      · rw [hpat]
        simp [startsW, hc]
    have hstep : replaceFirst ((c :: cs) ++ toL ".tar.gz") (toL ".tar.gz") [] =
        c :: replaceFirst (cs ++ toL ".tar.gz") (toL ".tar.gz") [] := by
      rw [List.cons_append]
      rw [List.cons_append] at hs
      simp only [replaceFirst, hs]
      simp
    rw [hstep, ih (fun x hx => h x (by simp [hx]))]

/-- Running `update` a second time with the same download outcome reproduces
the first run's result exactly. -/
theorem update_idem (version : JStr) (st : ClientState)
    (dl : Except String (JStr × TarData)) :
    update version (update version st dl).2 dl = update version st dl := by
  cases dl with
  | error e => rfl
  | ok pr =>
    obtain ⟨name, td⟩ := pr
    cases td with
    | good es => rfl
    | bad es => rfl

/-! ## Claims -/

/-- C1 (amended): for every directory-root state, the catalog produced by
`get_versions`/`sortVersionsDescending` is exactly (a permutation of) the
entries matching the digit-dot grammar — non-matching entries absent, never an
error — sorted descending by per-component comparison of the IEEE-754 double
values `Number()` yields for the components, missing components treated as 0
(distinct integer components from `2 ^ 53` up can round to the same double,
and huge components overflow to `Infinity`); any two entries whose rounded
padded tuples are equal are kept in their listing order (the sort is stable),
the order is strict whenever no two matching entries have equal rounded
tuples, and the output is deterministic. -/
theorem c1_catalog_filtered_and_sorted (d : DirState) :
    get_versions d = VRes.ok (catalogOf d) ∧
    (catalogOf d).Perm ((getFolders d).filter matchesGrammar) ∧
    (catalogOf d).Pairwise versLe ∧
    (∀ a b, jsCmp (parts a) (parts b) = 0 →
        List.Sublist [a, b] ((getFolders d).filter matchesGrammar) →
        List.Sublist [a, b] (catalogOf d)) ∧
    (((getFolders d).filter matchesGrammar).Pairwise
        (fun a b => jsCmp (parts a) (parts b) ≠ 0) →
      (catalogOf d).Pairwise (fun a b => jsCmp (parts a) (parts b) < 0)) := by
  refine ⟨get_versions_ok d, ?_, ?_, ?_, ?_⟩
  · rw [catalogOf_eq]
    exact List.perm_insertionSort _ _
  · rw [catalogOf_eq]
    exact List.sorted_insertionSort _ _
  · intro a b h0 hsub
    rw [catalogOf_eq]
    refine List.pair_sublist_insertionSort ?_ hsub
    unfold versLe
    omega
  · intro hne
    have hsymm : Symmetric (fun a b : JStr => jsCmp (parts a) (parts b) ≠ 0) := by
      intro a b hab e
      have := jsCmp_swap (parts a) (parts b)
      omega
    have hsorted : (catalogOf d).Pairwise versLe := by
      rw [catalogOf_eq]
      exact List.sorted_insertionSort _ _
    have hne' : (catalogOf d).Pairwise (fun a b => jsCmp (parts a) (parts b) ≠ 0) := by
      rw [catalogOf_eq]
      exact ((List.perm_insertionSort versLe _).pairwise_iff
        (fun {a b} hab => hsymm hab)).mpr hne
    refine (hsorted.and hne').imp ?_
    intro a b hab
    exact lt_of_le_of_ne hab.1 hab.2

/-- C1 counterexample: `Number()` conflates the distinct integers
`9007199254740992` and `9007199254740993` (equal as doubles, `2 ^ 53` and
`2 ^ 53 + 1`), so the comparator reports a tie and the stable sort keeps the
listing order — the exactly-smaller version first — and the catalog is not
strictly (nor even weakly) descending by exact numeric per-component tuple
comparison as the claim states; `["1.0", "1.00"]` likewise keeps both
equal-tuple entries. -/
theorem c1_strictness_counterexample :
    catalogOf (.listing [(toL "9007199254740992", true),
        (toL "9007199254740993", true)]) =
      [toL "9007199254740992", toL "9007199254740993"] ∧
    chunkVal (toL "9007199254740992") < chunkVal (toL "9007199254740993") ∧
    jsNumber (toL "9007199254740992") = jsNumber (toL "9007199254740993") ∧
    catalogOf (.listing [(toL "1.0", true), (toL "1.00", true)]) =
      [toL "1.0", toL "1.00"] := by
  refine ⟨by decide, by decide, by decide, by decide⟩

/-- C1 witness: a concrete listing with pairwise distinct rounded tuples,
strictly descending output. -/
theorem c1_witness :
    (catalogOf (.listing [(toL "1.0.0", true), (toL "2.1.0", true),
        (toL "v1.0", true), (toL "1.0.0-beta.1", true)])).Pairwise
      (fun a b => jsCmp (parts a) (parts b) < 0) :=
  (c1_catalog_filtered_and_sorted _).2.2.2.2 (by decide)

/-- C5 (amended): `get_versions` never reports a failure — a read error on the
package root is swallowed inside `getFolders`, which returns `[]` — so
`GET /versions` always answers the success shape `{versions, latest}` with
`latest` the first entry or `null` when the list is empty; the `500`
catalog-read-failure branch is unreachable. -/
theorem c5_versions_never_fails (d : DirState) :
    get_versions d = VRes.ok (catalogOf d) ∧
    versionsHandler d = VersionsResp.ok (catalogOf d) (catalogOf d).head? := by
  refine ⟨get_versions_ok d, ?_⟩
  unfold versionsHandler
  rw [get_versions_ok d]

/-- C5 counterexample: with the package root inaccessible, `get_versions`
reports success with an empty list and `GET /versions` answers
`200 {versions: [], latest: null}`, not the claimed `CatalogReadError`/`500`. -/
theorem c5_inaccessible_counterexample :
    get_versions DirState.inaccessible = VRes.ok [] ∧
    versionsHandler DirState.inaccessible = VersionsResp.ok [] none ∧
    versionsHandler DirState.inaccessible ≠ VersionsResp.err 500 "Invalid versions array" := by
  refine ⟨rfl, rfl, ?_⟩
  decide

/-- C2 (amended): a request whose version string contains `../` is rejected
with `404` — `Version … not found` echoing only the requested string (or
`No available releases` when the catalog is empty) — because a traversal
string can never match the catalog; the `403` path-containment rejection is
never produced for it, and no response depends on a resolved filesystem
path. -/
theorem c2_traversal_rejected_with_404 (base : List JStr) (ex : List JStr → Bool)
    (d : DirState) (q : JStr) (h : hasTraversal q = true) :
    updatesHandler base ex d (some q) =
      (if catalogOf d = [] then .noReleases404 else .versionNotFound404 q) := by
  have hs := slash_of_traversal h
  have hq : q ≠ [] := by
    intro e
    subst e
    cases hs
  have hres : resolveVersion (catalogOf d) q = none := by
    unfold resolveVersion
    rw [if_neg (slash_not_latest hs), List.find?_eq_none]
    intro w hw
    simpa using slash_no_match (mem_catalog_grammar hw) hs
  rw [updatesHandler_eq, requestedOf_some hq]
  by_cases hc : catalogOf d = []
  · rw [if_pos hc, if_pos hc]
  · rw [if_neg hc, if_neg hc, hres]

/-- C2 counterexample: with catalog `["1.0.0"]`, requesting `../1.0.0` is
answered by the version-not-found `404`, not by the path-containment `403`
the claim requires. -/
theorem c2_counterexample :
    updatesHandler [toL "srv", toL "app"] (fun _ => true)
        (.listing [(toL "1.0.0", true)]) (some (toL "../1.0.0"))
      = .versionNotFound404 (toL "../1.0.0") ∧
    updatesHandler [toL "srv", toL "app"] (fun _ => true)
        (.listing [(toL "1.0.0", true)]) (some (toL "../1.0.0"))
      ≠ .invalidPath403 := by
  decide

/-- C2 witness: a traversal request against a nonempty catalog gets the
version-not-found 404. -/
theorem c2_witness :
    updatesHandler [toL "x"] (fun _ => true) (.listing [(toL "2.0", true)])
        (some (toL "../../etc/passwd"))
      = .versionNotFound404 (toL "../../etc/passwd") := by
  have h := c2_traversal_rejected_with_404 [toL "x"] (fun _ => true)
    (.listing [(toL "2.0", true)]) (toL "../../etc/passwd") (by decide)
  rw [h]
  decide

/-- C10: every version string that reaches the archive-streaming stage of
`GET /updates` is a catalog entry (hence matches `^\d+(\.\d+)*$`), the path
it resolves to is `BASE_DIR ++ [version]` — a strict descendant of the base
directory passing the containment check — and the `403 'Invalid version
path'` branch is unreachable for every request. -/
theorem c10_invalid_path_unreachable (base : List JStr) (ex : List JStr → Bool)
    (d : DirState) (q : Option JStr)
    (hbase : ∀ c ∈ base, normalComp c = true) (hne : base ≠ []) :
    updatesHandler base ex d q ≠ .invalidPath403 ∧
    (∀ v p, updatesHandler base ex d q = .stream200 v p →
      v ∈ catalogOf d ∧ matchesGrammar v = true ∧ p = base ++ [v]) := by
  constructor
  · intro h
    rw [updatesHandler_eq] at h
    split at h
    · exact absurd h (by simp)
    · split at h
      · exact absurd h (by simp)
      · next u hr =>
          have hmem := resolve_mem hr
          obtain ⟨hnorm, hstart⟩ := resolved_path_of_catalog hbase hne hmem
          have hg := mem_catalog_grammar hmem
          have hsplit : splitOnChar '/' u = [u] :=
            splitOnChar_eq_single (fun c hc e => grammar_no_slash hg (e ▸ hc))
          rw [hsplit] at h hnorm
          rw [hnorm, hstart] at h
          simp at h
          split at h <;> simp at h
  · intro v p h
    obtain ⟨hmem, hp⟩ := updatesHandler_stream_inv h
    have hg := mem_catalog_grammar hmem
    obtain ⟨hnorm, _⟩ := resolved_path_of_catalog hbase hne hmem
    have hsplit : splitOnChar '/' v = [v] :=
      splitOnChar_eq_single (fun c hc e => grammar_no_slash hg (e ▸ hc))
    rw [hsplit] at hnorm
    refine ⟨hmem, hg, ?_⟩
    rw [hp, hsplit, hnorm]

/-- C10 witness: a concrete request streams `1.0.0` from `base ++ ["1.0.0"]`
and is not the invalid-path rejection. -/
theorem c10_witness :
    (toL "1.0.0") ∈ catalogOf (.listing [(toL "1.0.0", true)]) ∧
    matchesGrammar (toL "1.0.0") = true ∧
    [toL "srv", toL "app", toL "1.0.0"] = [toL "srv", toL "app"] ++ [toL "1.0.0"] :=
  (c10_invalid_path_unreachable [toL "srv", toL "app"] (fun _ => true)
      (.listing [(toL "1.0.0", true)]) (some (toL "1.0.0"))
      (by decide) (by decide)).2
    (toL "1.0.0") [toL "srv", toL "app", toL "1.0.0"] (by decide)

/-- C4: resolution maps `LATEST` (case-insensitively) to the first catalog
entry; otherwise it requires an exact case-insensitive match against a catalog
entry after stripping whitespace from the request (no partial matching, the
match being an equality of uppercased strings); an empty catalog or no match
yields the recoverable 404 rejection. -/
theorem c4_resolution_contract (base : List JStr) (ex : List JStr → Bool)
    (d : DirState) (q : JStr) :
    (catalogOf d = [] → updatesHandler base ex d (some q) = .noReleases404) ∧
    (upperStr q = toL "LATEST" →
        resolveVersion (catalogOf d) q = (catalogOf d).head?) ∧
    (∀ v, upperStr q ≠ toL "LATEST" → resolveVersion (catalogOf d) q = some v →
        v ∈ catalogOf d ∧ upperStr v = upperStr (stripWs q)) ∧
    (upperStr q ≠ toL "LATEST" →
        (∀ v ∈ catalogOf d, upperStr v ≠ upperStr (stripWs q)) →
        q ≠ [] → catalogOf d ≠ [] →
        updatesHandler base ex d (some q) = .versionNotFound404 q) := by
  refine ⟨?_, ?_, ?_, ?_⟩
  · intro hc
    rw [updatesHandler_eq, if_pos hc]
  · intro hl
    unfold resolveVersion
    rw [if_pos hl]
  · intro v hl hr
    exact ⟨resolve_mem hr, resolve_match hl hr⟩
  · intro hl hnone hq hc
    have hres : resolveVersion (catalogOf d) q = none := by
      unfold resolveVersion
      rw [if_neg hl, List.find?_eq_none]
      intro w hw
      simpa using hnone w hw
    rw [updatesHandler_eq, requestedOf_some hq, if_neg hc, hres]

/-- C4 witness: `" 2.1.0 "` resolves to the catalog entry `2.1.0` by exact
match after whitespace-stripping. -/
theorem c4_witness :
    (toL "2.1.0") ∈ catalogOf (.listing [(toL "1.0.0", true), (toL "2.1.0", true)]) ∧
    upperStr (toL "2.1.0") = upperStr (stripWs (toL " 2.1.0 ")) :=
  (c4_resolution_contract [toL "app"] (fun _ => true)
      (.listing [(toL "1.0.0", true), (toL "2.1.0", true)]) (toL " 2.1.0 ")).2.2.1
    (toL "2.1.0") (by decide) (by decide)

/-- C3: if extraction fails (malformed/truncated archive), `update` returns
failure at the extraction stage and `version.txt` is untouched; the record is
ever overwritten only by a run whose apply succeeded. -/
theorem c3_extraction_failure_preserves_record (version : JStr) (st : ClientState)
    (name : JStr) (es : List TarEntry) :
    update version st (.ok (name, .bad es)) =
      (false, { st with appDir := some (stripExtract es) }) ∧
    (∀ dl, (update version st dl).2.versionFile ≠ st.versionFile →
        (update version st dl).1 = true) := by
  constructor
  · rfl
  · intro dl h
    cases dl with
    | error e => exact absurd rfl h
    | ok pr =>
      obtain ⟨n, td⟩ := pr
      cases td with
      | good es2 => rfl
      | bad es2 => exact absurd rfl h

/-- C3 witness: a successful run (the only way the record changes) reports
`true`. -/
theorem c3_witness :
    (update (toL "1.0.0") ⟨none, none⟩
        (.ok (toL "1.0.0.tar.gz", .good [([toL "1.0.0", toL "a.txt"], toL "x")]))).1
      = true :=
  (c3_extraction_failure_preserves_record (toL "1.0.0") ⟨none, none⟩ (toL "z") []).2
    (.ok (toL "1.0.0.tar.gz", .good [([toL "1.0.0", toL "a.txt"], toL "x")]))
    (by decide)

/-- C6: extraction fully replaces the application directory — the result never
depends on its prior contents — and on success the new contents are exactly
the archive entries with one leading path component stripped (entries of a
single component vanish with the stripped wrapper). -/
theorem c6_full_replace_strip_one :
    (∀ (app app' : Option (List TarEntry)) (td : TarData),
        extractTar app td = extractTar app' td) ∧
    (∀ (app : Option (List TarEntry)) (es : List TarEntry),
        extractTar app (.good es) = (some (stripExtract es), true)) ∧
    (∀ (es : List TarEntry) (q : List JStr) (c : JStr),
        ((q, c) ∈ stripExtract es ↔ q ≠ [] ∧ ∃ x, (x :: q, c) ∈ es)) := by
  refine ⟨?_, ?_, ?_⟩
  · intro app app' td
    cases td <;> rfl
  · intro app es
    rfl
  · intro es q c
    unfold stripExtract
    simp only [List.mem_map, List.mem_filter, decide_eq_true_eq]
    constructor
    · rintro ⟨⟨p, c'⟩, ⟨hmem, hlen⟩, heq⟩
      cases p with
      | nil => simp at hlen
      | cons x t =>
        simp only [List.drop_succ_cons, List.drop_zero, Prod.mk.injEq] at heq
        obtain ⟨rfl, rfl⟩ := heq
        refine ⟨?_, x, hmem⟩
        simp only [List.length_cons] at hlen
        intro e
        subst e
        simp at hlen
    · rintro ⟨hq, x, hmem⟩
      refine ⟨(x :: q, c), ⟨hmem, ?_⟩, by simp⟩
      simp only [List.length_cons]
      have := List.length_pos.mpr hq
      omega

/-- C6 witness: extraction over stale contents lands the wrapped file directly
in the target. -/
theorem c6_witness :
    extractTar (some [([toL "old"], toL "junk")])
        (.good [([toL "2.1.0", toL "f"], toL "data")])
      = (some [([toL "f"], toL "data")], true) := by
  rw [c6_full_replace_strip_one.2.1]
  decide

/-- C7 (amended): after a successful `update(version)` the persisted record is
the server-resolved catalog identifier only when the request was exactly the
string `LATEST` (recovered from the download filename); every other request —
including case variants such as `latest` and whitespace variants of catalog
entries — is recorded verbatim as sent, even though the server resolved and
applied the catalog identifier. -/
theorem c7_record_raw_request_except_latest
    (base : List JStr) (ex : List JStr → Bool) (d : DirState)
    (pkg : JStr → List TarEntry) (st : ClientState) (requested : JStr)
    (v : JStr) (p : List JStr)
    (h : updatesHandler base ex d (some requested) = .stream200 v p) :
    endToEnd base ex d pkg st requested =
      (true, ⟨some (if requested = toL "LATEST" then v else requested),
              some (stripExtract ((pkg v).map (fun e => (v :: e.1, e.2))))⟩) := by
  have hg := mem_catalog_grammar (updatesHandler_stream_inv h).1
  unfold endToEnd serveDownload
  rw [h]
  unfold update
  simp only [extractTar]
  rw [replaceFirst_tarGz (grammar_chars hg)]

/-- C7 counterexample: requesting `latest` (lowercase) against catalog
`["2.1.0"]` applies version `2.1.0` (the application directory receives its
package contents) but records the raw string `latest`, not the applied
catalog identifier. -/
theorem c7_counterexample :
    endToEnd [toL "app"] (fun _ => true) (.listing [(toL "2.1.0", true)])
        (fun _ => [([toL "f.txt"], toL "data")]) ⟨none, none⟩ (toL "latest")
      = (true, ⟨some (toL "latest"), some [([toL "f.txt"], toL "data")]⟩) ∧
    updatesHandler [toL "app"] (fun _ => true) (.listing [(toL "2.1.0", true)])
        (some (toL "latest"))
      = .stream200 (toL "2.1.0") [toL "app", toL "2.1.0"] ∧
    toL "latest" ≠ toL "2.1.0" := by
  decide

/-- C7 witness: an exact `LATEST` request records the resolved identifier. -/
theorem c7_witness :
    endToEnd [toL "app"] (fun _ => true) (.listing [(toL "1.0.0", true)])
        (fun _ => [([toL "f"], toL "d")]) ⟨none, none⟩ (toL "LATEST")
      = (true, ⟨some (toL "1.0.0"), some [([toL "f"], toL "d")]⟩) := by
  have h := c7_record_raw_request_except_latest [toL "app"] (fun _ => true)
    (.listing [(toL "1.0.0", true)]) (fun _ => [([toL "f"], toL "d")]) ⟨none, none⟩
    (toL "LATEST") (toL "1.0.0") [toL "app", toL "1.0.0"] (by decide)
  rw [h]
  decide

/-- C8: `checkForUpdate` returns `false` exactly when the first catalog entry
equals the installed record, and `true` otherwise, by plain string
(in)equality — in particular both `2.0.0` installed with `10.0.0` first and
`10.0.0` installed with `2.0.0` first report `true` (no numeric-aware
comparison); in this model it is a pure function of its two reads. -/
theorem c8_check_plain_string_inequality (available : List JStr)
    (file : Option JStr) (h : available ≠ []) :
    (checkForUpdate available file = true ↔
        available.head? ≠ getCurrentVersion file) ∧
    checkForUpdate [toL "10.0.0"] (some (toL "2.0.0")) = true ∧
    checkForUpdate [toL "2.0.0"] (some (toL "10.0.0")) = true := by
  refine ⟨?_, by decide, by decide⟩
  unfold checkForUpdate
  cases available with
  | nil => exact absurd rfl h
  | cons a l => simp

/-- C8 witness: equal record and first entry yield `false`. -/
theorem c8_witness :
    checkForUpdate [toL "1.0.0"] (some (toL "1.0.0")) = false := by
  have h := (c8_check_plain_string_inequality [toL "1.0.0"]
    (some (toL "1.0.0")) (by decide)).1
  by_cases hb : checkForUpdate [toL "1.0.0"] (some (toL "1.0.0")) = true
  · exact absurd (h.mp hb) (by decide)
  · simpa using hb

/-- C9: running `update(version)` twice in succession with the same server
state yields exactly the state of running it once (the second run re-extracts
and re-records identically), and the resulting application directory never
depends on the prior client state — the apply is unconditional, with no
no-op short-circuit on an already-installed version. -/
theorem c9_repeated_update_idempotent (base : List JStr) (ex : List JStr → Bool)
    (d : DirState) (pkg : JStr → List TarEntry) (st : ClientState)
    (requested : JStr) :
    endToEnd base ex d pkg (endToEnd base ex d pkg st requested).2 requested =
      endToEnd base ex d pkg st requested ∧
    (∀ (s1 s2 : ClientState) (version name : JStr) (td : TarData),
        (update version s1 (.ok (name, td))).2.appDir =
          (update version s2 (.ok (name, td))).2.appDir) := by
  constructor
  · unfold endToEnd
    exact update_idem requested st _
  · intro s1 s2 version name td
    cases td <;> rfl
